import Mathlib

/-!
Verification development for the K-distributed sea-clutter simulator
(`K_distributed_SeaClutter_Simulation_20210919.py`).

The numeric pipeline is shallowly embedded: arrays become `Mat` (dimensions
plus a data function), external numeric library primitives (erfc, the inverse
regularized incomplete gamma function, the polynomial root solver, the 2-D
FFTs, the complex square root) become fields of a `NumEnv` parameter, and the
IEEE-754 comparison semantics needed by the non-finiteness asserts is modelled
by the small `FV` type.
-/

/-- Model of an IEEE-754 double for the purposes of the non-finiteness checks
in `generate_K_distributed_noise_fast`: a finite value (payload irrelevant to
the checks, kept as a rational), positive infinity, negative infinity, or NaN. -/
inductive FV where
  | num : ℚ → FV
  | pinf : FV
  | ninf : FV
  | nan : FV
deriving DecidableEq

/-- IEEE-754 elementwise equality, as used by numpy's `==` on float arrays:
NaN compares unequal to everything, including NaN itself. -/
def fvEq : FV → FV → Bool
  | .nan, _ => false
  | _, .nan => false
  | .num a, .num b => a == b
  | .pinf, .pinf => true
  | .ninf, .ninf => true
  | _, _ => false

/-- Lines 564-565 of the source, the two asserts guarding the MNLT output:
`assert (np.sum(Gan_field == np.inf)) == 0` and
`assert (np.sum(Gan_field == np.nan)) == 0`.  `np.sum` of a boolean mask is
the count of `True` entries, so each assert requires the count to be zero. -/
def ganAsserts (gan : List FV) : Bool :=
  (gan.countP (fun z => fvEq z FV.pinf) == 0) &&
  (gan.countP (fun z => fvEq z FV.nan) == 0)

/-- The control flow around the asserts: if both asserts pass, the very same
`Gan_field` is returned to the caller (as the texture field); if an assert
fails, an `AssertionError` aborts the call (`none`).  There is no retry loop
anywhere in `generate_K_distributed_noise_fast`. -/
def ganGuard (gan : List FV) : Option (List FV) :=
  if ganAsserts gan then some gan else none

/-- A 2-D numpy array: explicit dimensions `(h, w)` (numpy `shape`) plus a
total data function (reads outside the dimensions never occur in the source). -/
structure Mat (α : Type) where
  h : ℕ
  w : ℕ
  data : ℕ → ℕ → α

/-- Elementwise function application (numpy ufunc on one array). -/
def Mat.map {α β : Type} (f : α → β) (m : Mat α) : Mat β :=
  ⟨m.h, m.w, fun i j => f (m.data i j)⟩

/-- A shape-preserving transform of the underlying data (used for the FFT
primitives, which return an array of the input's shape). -/
def Mat.trans {α : Type} (f : (ℕ → ℕ → α) → ℕ → ℕ → α) (m : Mat α) : Mat α :=
  ⟨m.h, m.w, f m.data⟩

/-- Elementwise product of two arrays (numpy `*`): defined when the shapes
agree, a `ValueError` (`none`) otherwise.  (The source never relies on
non-trivial broadcasting.) -/
def Mat.emul {α : Type} [Mul α] (a b : Mat α) : Option (Mat α) :=
  if a.h = b.h ∧ a.w = b.w then some ⟨a.h, a.w, fun i j => a.data i j * b.data i j⟩
  else none

/-- Row-major flattening of a 2-D array, the cell order of the nested
`for r: for theta:` loops of `solve_acf_polyn` and of `np.sum` over a field. -/
def Mat.toList {α : Type} (m : Mat α) : List α :=
  (List.range (m.h * m.w)).map (fun k => m.data (k / m.w) (k % m.w))

/-- `np.linspace(start, stop, num, endpoint=True)`. -/
noncomputable def linspace (start stop : ℝ) (num : ℕ) : List ℝ :=
  (List.range num).map (fun i => start + (stop - start) * i / (num - 1))

/-- `np.meshgrid(xs, ys)` (default 'xy' indexing): both outputs have shape
`(ys.length, xs.length)`, `XS[i][j] = xs[j]` and `YS[i][j] = ys[i]`. -/
noncomputable def meshgrid (xs ys : List ℝ) : Mat ℝ × Mat ℝ :=
  (⟨ys.length, xs.length, fun _i j => xs.getD j 0⟩,
   ⟨ys.length, xs.length, fun i _j => ys.getD i 0⟩)

/-- The external numeric primitives the simulator calls, kept abstract:
`scipy.special.erfc`, `scipy.special.gammaincinv` (inverse of the regularized
lower incomplete gamma function, i.e. the Gamma(v, scale=1) quantile),
`np.roots(coeffs)[0]` (the first root returned by the companion-matrix root
solver), `np.fft.fft2` / `np.fft.ifft2`, and the complex `np.sqrt`. -/
structure NumEnv where
  erfc : ℝ → ℝ
  gammaincinv : ℝ → ℝ → ℝ
  rootsFirst : List ℝ → ℂ
  fft2 : (ℕ → ℕ → ℂ) → ℕ → ℕ → ℂ
  ifft2 : (ℕ → ℕ → ℂ) → ℕ → ℕ → ℂ
  csqrt : ℂ → ℂ

/-- `mnlt(x, v)` (lines 83-91): `nlx = 1 - erfc(x/sqrt(2))/2` followed by
`gammaincinv(v, nlx)`. -/
noncomputable def mnlt (env : NumEnv) (x v : ℝ) : ℝ :=
  env.gammaincinv v (1 - env.erfc (x / Real.sqrt 2) / 2)

/-- `hermite_polynomials(x, n)` (lines 93-118), translated branch for branch:
orders above 5 are clamped to 5 with a printed warning, then a chain of
equality tests selects the closed-form polynomial.  Note the order-5 line of
the source reads `32*(x**5)-160*(x**3) + 120`. -/
noncomputable def hermite_polynomials (x : ℝ) (n : ℕ) : ℝ :=
  let m := if n > 5 then 5 else n
  if m = 5 then 32 * x ^ 5 - 160 * x ^ 3 + 120
  else if m = 4 then 16 * x ^ 4 - 48 * x ^ 2 + 12
  else if m = 3 then 8 * x ^ 3 - 12 * x
  else if m = 2 then 4 * x ^ 2 - 2
  else if m = 1 then 2 * x
  else 1

/-- The physicist Hermite polynomials `H_n(x) = (-1)^n exp(x^2) d^n/dx^n exp(-x^2)`
(the formula in the docstring of `hermite_polynomials`), via the standard
recurrence `H_{n+2}(x) = 2 x H_{n+1}(x) - 2 (n+1) H_n(x)`. -/
noncomputable def hermiteH : ℕ → ℝ → ℝ
  | 0, _ => 1
  | 1, x => 2 * x
  | n + 2, x => 2 * x * hermiteH (n + 1) x - 2 * ((n : ℝ) + 1) * hermiteH n x

/-- `coeff_acf_polyn(x, gamma_cdf_inv)` (lines 121-139): for `n` running
`2, 1, 0` (the source's `range(2, -1, -1)`), append
`1/(pi * n! * 2^n) * (np.sum(exp(-x^2) * H_n(x) * gamma_cdf_inv))^2`.
The fields are flattened to lists; `np.sum` over elementwise products of
equal-shape arrays is the sum over the zipped cells. -/
noncomputable def coeff_acf_polyn (x gamma_cdf_inv : List ℝ) : List ℝ :=
  [2, 1, 0].foldl (fun coeffs n =>
    coeffs ++ [1 / (Real.pi * (Nat.factorial n : ℝ) * 2 ^ n) *
      ((List.zipWith (fun a b => Real.exp (-(a ^ 2)) * hermite_polynomials a n * b)
        x gamma_cdf_inv).sum) ^ 2]) []

/-- The coefficient estimator as the spec's words describe it (§4.3): the same
formula but with the expectation estimated by the arithmetic mean over all
grid cells instead of the plain sum.  Kept for comparison with the source's
`coeff_acf_polyn`. -/
noncomputable def coeff_acf_polyn_mean (x gamma_cdf_inv : List ℝ) : List ℝ :=
  [2, 1, 0].foldl (fun coeffs n =>
    coeffs ++ [1 / (Real.pi * (Nat.factorial n : ℝ) * 2 ^ n) *
      (((List.zipWith (fun a b => Real.exp (-(a ^ 2)) * hermite_polynomials a n * b)
        x gamma_cdf_inv).sum) / (x.length : ℝ)) ^ 2]) []

/-- `arr[-1]` of a numpy 1-D array: the entry at index `length - 1`. -/
noncomputable def lastD (l : List ℝ) : ℝ := l.getD (l.length - 1) 0

/-- `coeffs_field = np.array(coeffs_field) / coeffs_field[-1]` (line 542):
divide every entry by the last entry. -/
noncomputable def normCoeffs (c : List ℝ) : List ℝ := c.map (fun a => a / lastD c)

/-- `coeffs[-1] = v` on a 1-D numpy array: replace the last entry (no-op on an
empty array never occurs in the source; modelled as the identity there). -/
noncomputable def setLast (l : List ℝ) (a : ℝ) : List ℝ :=
  match l with
  | [] => []
  | _ :: _ => l.dropLast ++ [a]

/-- The cell loop of `solve_acf_polyn` (lines 151-162), with the working copy
`coeffs` threaded through explicitly: at each texture-ACF cell `t` the loop
executes `coeffs[-1] = coeff_acf_polyn[-1] - t` (note: the right-hand side
reads the caller's original vector `orig`, not the working copy) and records
`np.roots(coeffs)[0]`.  Returns the final working copy and the recorded roots
in cell order. -/
noncomputable def solveCells (env : NumEnv) (orig : List ℝ) : List ℝ → List ℝ → List ℝ × List ℂ
  | work, [] => (work, [])
  | work, t :: ts =>
    let work2 := setLast work (lastD orig - t)
    let rest := solveCells env orig work2 ts
    (rest.1, env.rootsFirst work2 :: rest.2)

/-- `solve_acf_polyn(gamma_acf, coeff_acf_polyn)` for a 1-D field (lines
148-155): `coeffs = coeff_acf_polyn.copy()` is the initial working copy, the
output array collects one root per cell.  (The parameter shadowing the
function name in the source is rendered as `coeff_vec`.) -/
noncomputable def solve_acf_polyn_1d (env : NumEnv) (gamma_acf : List ℝ) (coeff_vec : List ℝ) : List ℂ :=
  (solveCells env coeff_vec coeff_vec gamma_acf).2

/-- `solve_acf_polyn(gamma_acf, coeff_acf_polyn)` for a 2-D field (lines
148-149 and 157-162): the nested `for r: for theta:` loops visit the cells in
row-major order with the same working copy threaded through; the output array
has the shape of `gamma_acf`. -/
noncomputable def solve_acf_polyn_2d (env : NumEnv) (gamma_acf : Mat ℝ) (coeff_vec : List ℝ) : Mat ℂ :=
  let roots := (solveCells env coeff_vec coeff_vec gamma_acf.toList).2
  ⟨gamma_acf.h, gamma_acf.w, fun i j => roots.getD (i * gamma_acf.w + j) 0⟩

/-- `generate_correlated_Gaussian_via_expdecay()` (lines 270-296): a 300x300
white-noise field is coloured in the frequency domain by the square root of a
power-law spectrum; the grid size `M = 300` is hardcoded.  The white-noise
draw is passed in as `gwn`. -/
noncomputable def generate_correlated_Gaussian_via_expdecay
    (env : NumEnv) (gwn : ℕ → ℕ → ℝ) : Mat ℂ :=
  let M : ℕ := 300
  let L : ℝ := 10
  let dx : ℝ := L / M
  let fs : ℝ := 1 / dx
  let Gwn : Mat ℝ := ⟨M, M, gwn⟩
  let F_Gw := Mat.trans env.fft2 (Gwn.map Complex.ofReal)
  let fx := linspace 0.1 fs M
  let fy := linspace 0.1 fs M
  let Fx := (meshgrid fx fy).1
  let Fy := (meshgrid fx fy).2
  let DFs : Mat ℝ := ⟨Fx.h, Fx.w, fun i j => Real.sqrt (Fx.data i j ^ 2 + Fy.data i j ^ 2)⟩
  let F_Rc : Mat ℝ := ⟨DFs.h, DFs.w, fun i j => 1 * DFs.data i j ^ (-(0.6 : ℝ))⟩
  let prodM : Mat ℂ := ⟨F_Gw.h, F_Gw.w, fun i j =>
    F_Gw.data i j * ((Real.sqrt (F_Rc.data i j) : ℝ) : ℂ)⟩
  Mat.trans env.ifft2 prodM

/-- Lines 566-568: `CKn_field = Gpn_field * np.sqrt(Gan_field)` followed by
`Ckn_field_am = np.abs(CKn_field)` — the K-field composer. -/
noncomputable def composeK (Gpn : Mat ℂ) (Gan : Mat ℝ) : Option (Mat ℝ) :=
  match Mat.emul Gpn (Gan.map (fun t => ((Real.sqrt t : ℝ) : ℂ))) with
  | some ck => some (ck.map Complex.abs)
  | none => none

/-- The instance state of class `KField` after `__init__` (lines 527-543). -/
structure KFieldState where
  img_w : ℕ
  img_h : ℕ
  gamma_shape : ℝ
  gamma_field_acf : Mat ℝ
  gaussian_field_acf : Mat ℂ

/-- `KField.__init__(img_w, img_h, gamma_shape)` (lines 528-543).  Note both
`xs` and `ys` are `np.linspace(10, img_h, num=img_w)`, so the meshgrid and the
texture ACF field have shape `(img_w, img_w)`.  The fresh white-noise draw of
shape `(img_h, img_w)` used for the coefficient estimate is passed in as `gwn`. -/
noncomputable def KField.init (env : NumEnv) (img_w img_h : ℕ) (gamma_shape : ℝ)
    (gwn : ℕ → ℕ → ℝ) : KFieldState :=
  let xs := linspace 10 (img_h : ℝ) img_w
  let ys := linspace 10 (img_h : ℝ) img_w
  let XS := (meshgrid xs ys).1
  let YS := (meshgrid xs ys).2
  let gamma_field_acf : Mat ℝ :=
    ⟨XS.h, XS.w, fun i j =>
      1 + Real.exp (-(XS.data i j + YS.data i j) / 10) *
        Real.cos (Real.pi * YS.data i j / 8) / gamma_shape⟩
  let Gwn_field : Mat ℝ := ⟨img_h, img_w, gwn⟩
  let gamma_cdf_inv_field := Gwn_field.map (fun t => mnlt env t gamma_shape)
  let coeffs_field := coeff_acf_polyn Gwn_field.toList gamma_cdf_inv_field.toList
  let coeffsN := normCoeffs coeffs_field
  ⟨img_w, img_h, gamma_shape, gamma_field_acf, solve_acf_polyn_2d env gamma_field_acf coeffsN⟩

/-- `KField.generate_K_distributed_noise_fast(self)` (lines 544-573), with the
two fresh white-noise draws passed in as `gwn` (texture path) and `sgwn`
(speckle path).  The method reads `self.gamma_shape`, `self.gamma_field_acf`
and `self.gaussian_field_acf` and assigns no attribute, so the state is
returned alongside the `(Ckn_field_am, Gan_field)` result; an exception
(shape mismatch in an elementwise product) yields `none`.  The non-finiteness
asserts on `Gan_field` are modelled separately over `FV` (see `ganGuard`):
over exact reals the comparisons with `np.inf`/`np.nan` never hold. -/
noncomputable def KField.generate (env : NumEnv) (s : KFieldState)
    (gwn sgwn : ℕ → ℕ → ℝ) : Option (Mat ℝ × Mat ℝ) × KFieldState :=
  let v := s.gamma_shape
  let height := s.gamma_field_acf.h
  let width := s.gamma_field_acf.w
  let Gwn_field : Mat ℝ := ⟨height, width, gwn⟩
  let F_Gw_field := Mat.trans env.fft2 (Gwn_field.map Complex.ofReal)
  let F_Grc_field := Mat.trans env.fft2 s.gaussian_field_acf
  match Mat.emul F_Gw_field (F_Grc_field.map env.csqrt) with
  | none => (none, s)
  | some prodM =>
    let Gcn_field := (Mat.trans env.ifft2 prodM).map Complex.re
    let Gan_field := Gcn_field.map (fun t => mnlt env t v)
    let Gpn_field := generate_correlated_Gaussian_via_expdecay env sgwn
    match composeK Gpn_field Gan_field with
    | none => (none, s)
    | some am => (some (am, Gan_field), s)

/-- A concrete environment used to instantiate universally quantified
theorems: erfc replaced by a strictly decreasing function, the gamma quantile
by the identity in the probability argument, the remaining primitives by
trivial functions. -/
noncomputable def envW : NumEnv :=
  ⟨fun t => -t, fun _ p => p, fun _ => 0, fun d => d, fun d => d, fun z => z⟩

/-- A concrete environment whose gamma quantile is non-negative. -/
noncomputable def envN : NumEnv :=
  ⟨fun t => -t, fun _ _ => 0, fun _ => 0, fun d => d, fun d => d, fun z => z⟩

/-! ### Helper lemmas -/

theorem setLast_setLast (l : List ℝ) (a b : ℝ) : setLast (setLast l a) b = setLast l b := by
  cases l with
  | nil => rfl
  | cons x xs =>
    show setLast ((x :: xs).dropLast ++ [a]) b = (x :: xs).dropLast ++ [b]
    cases h : (x :: xs).dropLast with
    | nil => rfl
    | cons y ys =>
      show ((y :: ys) ++ [a]).dropLast ++ [b] = (y :: ys) ++ [b]
      rw [List.dropLast_concat]

theorem dropLast_setLast (l : List ℝ) (a : ℝ) : (setLast l a).dropLast = l.dropLast := by
  cases l with
  | nil => rfl
  | cons x xs =>
    show ((x :: xs).dropLast ++ [a]).dropLast = (x :: xs).dropLast
    rw [List.dropLast_concat]

theorem solveCells_snd (env : NumEnv) (orig : List ℝ) :
    ∀ (ts work : List ℝ),
      (solveCells env orig work ts).2 =
        ts.map (fun t => env.rootsFirst (setLast work (lastD orig - t))) := by
  intro ts
  induction ts with
  | nil => intro work; rfl
  | cons t ts ih =>
    intro work
    show env.rootsFirst (setLast work (lastD orig - t)) ::
        (solveCells env orig (setLast work (lastD orig - t)) ts).2 = _
    rw [ih]
    simp [setLast_setLast]

theorem solveCells_fst (env : NumEnv) (orig : List ℝ) :
    ∀ (ts work : List ℝ), (solveCells env orig work ts).1.dropLast = work.dropLast := by
  intro ts
  induction ts with
  | nil => intro work; rfl
  | cons t ts ih =>
    intro work
    show (solveCells env orig (setLast work (lastD orig - t)) ts).1.dropLast = _
    rw [ih, dropLast_setLast]

theorem getD_map_lt (f : ℝ → ℂ) :
    ∀ (l : List ℝ) (k : ℕ), k < l.length → (l.map f).getD k 0 = f (l.getD k 0) := by
  intro l
  induction l with
  | nil => intro k hk; simp at hk
  | cons x xs ih =>
    intro k hk
    cases k with
    | zero => rfl
    | succ k =>
      simp only [List.map_cons, List.getD_cons_succ]
      exact ih k (by simpa using hk)

theorem range_map_getD {α : Type} (d : α) (F : ℕ → α) (n k : ℕ) (h : k < n) :
    ((List.range n).map F).getD k d = F k := by
  rw [List.getD_eq_getElem?_getD]
  rw [List.getElem?_map, List.getElem?_range h]
  rfl

theorem map_getD_self {α : Type} (l : List α) (d : α) :
    (List.range l.length).map (fun k => l.getD k d) = l := by
  apply List.ext_getElem
  · simp
  · intro n h1 h2
    simp only [List.getElem_map, List.getElem_range]
    rw [List.getD_eq_getElem?_getD, List.getElem?_eq_getElem h2]
    rfl

theorem Mat.toList_length {α : Type} (m : Mat α) : m.toList.length = m.h * m.w := by
  simp [Mat.toList]

theorem coeff_acf_polyn_explicit (x T : List ℝ) :
    coeff_acf_polyn x T =
      [1 / (Real.pi * 2 * 2 ^ 2) *
         ((List.zipWith (fun a b => Real.exp (-(a ^ 2)) * hermite_polynomials a 2 * b) x T).sum) ^ 2,
       1 / (Real.pi * 1 * 2 ^ 1) *
         ((List.zipWith (fun a b => Real.exp (-(a ^ 2)) * hermite_polynomials a 1 * b) x T).sum) ^ 2,
       1 / (Real.pi * 1 * 2 ^ 0) *
         ((List.zipWith (fun a b => Real.exp (-(a ^ 2)) * hermite_polynomials a 0 * b) x T).sum) ^ 2] := by
  simp [coeff_acf_polyn, Nat.factorial]

theorem coeff_acf_polyn_mean_explicit (x T : List ℝ) :
    coeff_acf_polyn_mean x T =
      [1 / (Real.pi * 2 * 2 ^ 2) *
         (((List.zipWith (fun a b => Real.exp (-(a ^ 2)) * hermite_polynomials a 2 * b) x T).sum) / (x.length : ℝ)) ^ 2,
       1 / (Real.pi * 1 * 2 ^ 1) *
         (((List.zipWith (fun a b => Real.exp (-(a ^ 2)) * hermite_polynomials a 1 * b) x T).sum) / (x.length : ℝ)) ^ 2,
       1 / (Real.pi * 1 * 2 ^ 0) *
         (((List.zipWith (fun a b => Real.exp (-(a ^ 2)) * hermite_polynomials a 0 * b) x T).sum) / (x.length : ℝ)) ^ 2] := by
  simp [coeff_acf_polyn_mean, Nat.factorial]

theorem hermite_at_zero_small :
    hermite_polynomials 0 0 = 1 ∧ hermite_polynomials 0 1 = 0 ∧ hermite_polynomials 0 2 = -2 := by
  refine ⟨rfl, ?_, ?_⟩ <;> norm_num [hermite_polynomials]

theorem coeff_single : coeff_acf_polyn [0] [1] = [1 / (2 * Real.pi), 0, 1 / Real.pi] := by
  rw [coeff_acf_polyn_explicit]
  have h := hermite_at_zero_small
  simp only [List.zipWith_cons_cons, List.zipWith_nil_right, List.sum_cons, List.sum_nil]
  rw [h.1, h.2.1, h.2.2]
  have hπ := Real.pi_ne_zero
  norm_num [Real.exp_zero]
  ring

theorem generate_state_eq (env : NumEnv) (s : KFieldState) (g1 g2 : ℕ → ℕ → ℝ) :
    (KField.generate env s g1 g2).2 = s := by
  unfold KField.generate
  dsimp only
  split
  · rfl
  · split <;> rfl

/-! ### Claim theorems -/

/-- C3: for every 1-D or 2-D texture ACF field and coefficient vector, the
inverter returns an array of the same shape whose value at each cell is the
first root returned by the root solver applied to the caller's coefficients
with the constant term replaced by `a0 - t[cell]` — unconditionally, whatever
the solver returns, and depending only on that cell's texture value and the
coefficients. -/
theorem solve_acf_polyn_pointwise (env : NumEnv) (coeff_vec : List ℝ)
    (t1 : List ℝ) (t2 : Mat ℝ) :
    (solve_acf_polyn_1d env t1 coeff_vec).length = t1.length ∧
    (solve_acf_polyn_2d env t2 coeff_vec).h = t2.h ∧
    (solve_acf_polyn_2d env t2 coeff_vec).w = t2.w ∧
    (∀ k, k < t1.length →
      (solve_acf_polyn_1d env t1 coeff_vec).getD k 0 =
        env.rootsFirst (setLast coeff_vec (lastD coeff_vec - t1.getD k 0))) ∧
    (∀ i j, i < t2.h → j < t2.w →
      (solve_acf_polyn_2d env t2 coeff_vec).data i j =
        env.rootsFirst (setLast coeff_vec (lastD coeff_vec - t2.data i j))) := by
  refine ⟨?_, rfl, rfl, ?_, ?_⟩
  · rw [show solve_acf_polyn_1d env t1 coeff_vec =
        (solveCells env coeff_vec coeff_vec t1).2 from rfl, solveCells_snd]
    exact List.length_map _ _
  · intro k hk
    rw [show solve_acf_polyn_1d env t1 coeff_vec =
        (solveCells env coeff_vec coeff_vec t1).2 from rfl, solveCells_snd]
    exact getD_map_lt _ t1 k hk
  · intro i j hi hj
    show ((solveCells env coeff_vec coeff_vec t2.toList).2).getD (i * t2.w + j) 0 = _
    rw [solveCells_snd, Mat.toList, List.map_map]
    have hw : 0 < t2.w := Nat.pos_of_ne_zero (by intro h; rw [h] at hj; exact Nat.not_lt_zero j hj)
    have hlt : i * t2.w + j < t2.h * t2.w := by
      calc i * t2.w + j < i * t2.w + t2.w := by omega
        _ = (i + 1) * t2.w := by ring
        _ ≤ t2.h * t2.w := Nat.mul_le_mul_right _ (by omega)
    rw [range_map_getD _ _ _ _ hlt]
    simp only [Function.comp_apply]
    rw [show i * t2.w + j = t2.w * i + j by ring, Nat.mul_add_div hw, Nat.div_eq_of_lt hj,
      Nat.mul_add_mod, Nat.mod_eq_of_lt hj, Nat.add_zero]

/-- C3 witness: the pointwise characterization instantiated at a concrete
environment, coefficient vector and one-cell field. -/
theorem solve_acf_polyn_pointwise_witness :
    (solve_acf_polyn_1d envW [4] [1, 2, 3]).getD 0 0 =
      envW.rootsFirst (setLast [1, 2, 3] (lastD [1, 2, 3] - ([(4 : ℝ)]).getD 0 0)) :=
  (solve_acf_polyn_pointwise envW [1, 2, 3] [4] ⟨1, 1, fun _ _ => 0⟩).2.2.2.1 0 (by norm_num)

/-- C10: `solve_acf_polyn` works on a copy of the coefficient vector and the
per-cell adjustment of the constant term always starts from the caller's
original coefficients: the result equals the pure per-cell map using the
original vector at every cell (1-D and 2-D), and the working copy never has
any entry but its last one modified. -/
theorem solve_acf_polyn_pure (env : NumEnv) (coeff_vec : List ℝ) (t1 : List ℝ) (t2 : Mat ℝ) :
    solve_acf_polyn_1d env t1 coeff_vec =
      t1.map (fun t => env.rootsFirst (setLast coeff_vec (lastD coeff_vec - t))) ∧
    (solve_acf_polyn_2d env t2 coeff_vec).toList =
      t2.toList.map (fun t => env.rootsFirst (setLast coeff_vec (lastD coeff_vec - t))) ∧
    (solveCells env coeff_vec coeff_vec t1).1.dropLast = coeff_vec.dropLast := by
  have key : ∀ R : List ℂ, R.length = t2.h * t2.w →
      Mat.toList ⟨t2.h, t2.w, fun i j => R.getD (i * t2.w + j) 0⟩ = R := by
    intro R hR
    show (List.range (t2.h * t2.w)).map (fun k => R.getD (k / t2.w * t2.w + k % t2.w) 0) = R
    calc (List.range (t2.h * t2.w)).map (fun k => R.getD (k / t2.w * t2.w + k % t2.w) 0)
        = (List.range (t2.h * t2.w)).map (fun k => R.getD k 0) := by
          apply List.map_congr_left
          intro k _
          congr 1
          rw [show k / t2.w * t2.w + k % t2.w = t2.w * (k / t2.w) + k % t2.w by ring,
            Nat.div_add_mod]
      _ = (List.range R.length).map (fun k => R.getD k 0) := by rw [hR]
      _ = R := map_getD_self R 0
  refine ⟨solveCells_snd env coeff_vec t1 coeff_vec, ?_, solveCells_fst env coeff_vec t1 coeff_vec⟩
  show Mat.toList ⟨t2.h, t2.w, fun i j =>
      ((solveCells env coeff_vec coeff_vec t2.toList).2).getD (i * t2.w + j) 0⟩ = _
  simp only [solveCells_snd]
  exact key _ (by rw [List.length_map, Mat.toList_length])

/-- C4: the MNLT is order preserving: for a fixed shape parameter `v > 0` and
inputs `x1 < x2`, `mnlt(x1, v) <= mnlt(x2, v)`, given the defining
monotonicity of the external primitives (erfc is decreasing, the Gamma
quantile `gammaincinv v` is increasing in the probability argument). -/
theorem mnlt_monotone (env : NumEnv) (v x1 x2 : ℝ) (hv : 0 < v)
    (herfc : Antitone env.erfc) (hginv : Monotone (env.gammaincinv v))
    (hx : x1 < x2) : mnlt env x1 v ≤ mnlt env x2 v := by
  unfold mnlt
  apply hginv
  have hs : (0 : ℝ) < Real.sqrt 2 := Real.sqrt_pos.mpr (by norm_num)
  have hdiv : x1 / Real.sqrt 2 ≤ x2 / Real.sqrt 2 :=
    div_le_div_of_nonneg_right hx.le hs.le
  have he : env.erfc (x2 / Real.sqrt 2) ≤ env.erfc (x1 / Real.sqrt 2) := herfc hdiv
  linarith

/-- C4 witness: monotonicity at the concrete environment `envW`, `v = 5`,
inputs `0 < 1`. -/
theorem mnlt_monotone_witness : mnlt envW 0 5 ≤ mnlt envW 1 5 :=
  mnlt_monotone envW 5 0 1 (by norm_num)
    (fun _ _ h => neg_le_neg h) (fun _ _ h => h) (by norm_num)

/-- C5 (code bug): the order-5 branch of `hermite_polynomials` returns
`32 x^5 - 160 x^3 + 120`, but the physicist Hermite polynomial named by the
function's own docstring is `H_5(x) = 32 x^5 - 160 x^3 + 120 x`: at `x = 0`
the code returns `120` while `H_5(0) = 0`.  Orders up to 4 agree with `H_n`,
and orders above 5 are clamped to the order-5 branch as the claim states. -/
theorem hermite_order_five_bug :
    hermite_polynomials 0 5 = 120 ∧ hermiteH 5 0 = 0 ∧
    (∀ x : ℝ, hermite_polynomials x 9 = hermite_polynomials x 5) ∧
    (∀ x : ℝ, hermite_polynomials x 4 = hermiteH 4 x) := by
  refine ⟨by norm_num [hermite_polynomials], ?_, fun x => rfl, fun x => ?_⟩
  · show 2 * 0 * hermiteH 4 0 - 2 * ((3 : ℕ) + 1 : ℝ) * hermiteH 3 0 = 0
    show 2 * 0 * hermiteH 4 0 - 2 * ((3 : ℕ) + 1 : ℝ) *
      (2 * 0 * hermiteH 2 0 - 2 * ((1 : ℕ) + 1 : ℝ) * hermiteH 1 0) = 0
    show 2 * 0 * hermiteH 4 0 - 2 * ((3 : ℕ) + 1 : ℝ) *
      (2 * 0 * hermiteH 2 0 - 2 * ((1 : ℕ) + 1 : ℝ) * (2 * 0)) = 0
    ring
  · show 16 * x ^ 4 - 48 * x ^ 2 + 12 =
      2 * x * hermiteH 3 x - 2 * ((2 : ℕ) + 1 : ℝ) * hermiteH 2 x
    show 16 * x ^ 4 - 48 * x ^ 2 + 12 =
      2 * x * (2 * x * hermiteH 2 x - 2 * ((1 : ℕ) + 1 : ℝ) * hermiteH 1 x) -
        2 * ((2 : ℕ) + 1 : ℝ) * hermiteH 2 x
    show 16 * x ^ 4 - 48 * x ^ 2 + 12 =
      2 * x * (2 * x * (2 * x * hermiteH 1 x - 2 * ((0 : ℕ) + 1 : ℝ) * hermiteH 0 x) -
        2 * ((1 : ℕ) + 1 : ℝ) * (2 * x)) -
        2 * ((2 : ℕ) + 1 : ℝ) * (2 * x * hermiteH 1 x - 2 * ((0 : ℕ) + 1 : ℝ) * hermiteH 0 x)
    show 16 * x ^ 4 - 48 * x ^ 2 + 12 =
      2 * x * (2 * x * (2 * x * (2 * x) - 2 * ((0 : ℕ) + 1 : ℝ) * 1) -
        2 * ((1 : ℕ) + 1 : ℝ) * (2 * x)) -
        2 * ((2 : ℕ) + 1 : ℝ) * (2 * x * (2 * x) - 2 * ((0 : ℕ) + 1 : ℝ) * 1)
    push_cast
    ring

/-- C9: one call of the frame generator leaves every engine field unchanged:
`img_w`, `img_h`, `gamma_shape`, the cached texture ACF field and the cached
(root-solved) Gaussian ACF field are identical before and after the call. -/
theorem generate_preserves_state (env : NumEnv) (s : KFieldState) (g1 g2 : ℕ → ℕ → ℝ) :
    ((KField.generate env s g1 g2).2).img_w = s.img_w ∧
    ((KField.generate env s g1 g2).2).img_h = s.img_h ∧
    ((KField.generate env s g1 g2).2).gamma_shape = s.gamma_shape ∧
    ((KField.generate env s g1 g2).2).gamma_field_acf = s.gamma_field_acf ∧
    ((KField.generate env s g1 g2).2).gaussian_field_acf = s.gaussian_field_acf := by
  rw [generate_state_eq]
  exact ⟨rfl, rfl, rfl, rfl, rfl⟩

/-- C6 counterexample: a field consisting of a single NaN cell passes both
asserts (the `== np.nan` mask is identically false under IEEE comparison) and
is returned unchanged to the caller — no discard, no regeneration. -/
theorem ganGuard_nan_cex : ganGuard [FV.nan] = some [FV.nan] := by decide

/-- C6 (amended): immediately after the MNLT the code only asserts; any field
with no cell comparing equal to `+inf` — fields containing NaN included —
passes the checks and is returned unchanged to the caller, while a field with
a `+inf` cell aborts the call with `AssertionError` instead of being
regenerated. -/
theorem ganGuard_behaviour (g : List FV) :
    ((∀ z ∈ g, z ≠ FV.pinf) → ganGuard g = some g) ∧
    (FV.pinf ∈ g → ganGuard g = none) := by
  constructor
  · intro hnp
    unfold ganGuard ganAsserts
    have h1 : g.countP (fun z => fvEq z FV.pinf) = 0 := by
      rw [List.countP_eq_zero]
      intro z hz
      have := hnp z hz
      cases z <;> simp [fvEq] at this ⊢
    have h2 : g.countP (fun z => fvEq z FV.nan) = 0 := by
      rw [List.countP_eq_zero]
      intro z hz
      cases z <;> simp [fvEq]
    rw [h1, h2]
    rfl
  · intro hp
    unfold ganGuard ganAsserts
    have h1 : 0 < g.countP (fun z => fvEq z FV.pinf) :=
      List.countP_pos_iff.mpr ⟨FV.pinf, hp, by simp [fvEq]⟩
    have h2 : (g.countP (fun z => fvEq z FV.pinf) == 0) = false := by
      simp [Nat.pos_iff_ne_zero.mp h1]
    rw [h2]
    rfl

/-- C6 witness: the amended behaviour instantiated on a concrete field that
contains a NaN cell and a finite cell but no `+inf` cell. -/
theorem ganGuard_behaviour_witness :
    ganGuard [FV.nan, FV.num 0] = some [FV.nan, FV.num 0] :=
  (ganGuard_behaviour [FV.nan, FV.num 0]).1 (by decide)

/-- C8: on same-shape inputs with non-negative texture, the composer returns
an array of that shape whose entries are exactly
`|speckle| * sqrt(texture)`, real and non-negative: the code's form
`abs(speckle * sqrt(texture))` equals `abs(speckle) * sqrt(texture)`. -/
theorem composeK_abs_mul (sp : Mat ℂ) (tex : Mat ℝ)
    (hh : sp.h = tex.h) (hw : sp.w = tex.w) (hnn : ∀ i j, 0 ≤ tex.data i j) :
    ∃ am, composeK sp tex = some am ∧ am.h = sp.h ∧ am.w = sp.w ∧
      (∀ i j, am.data i j = Complex.abs (sp.data i j) * Real.sqrt (tex.data i j)) ∧
      (∀ i j, 0 ≤ am.data i j) := by
  unfold composeK Mat.emul
  have hcond : sp.h = (tex.map (fun t => ((Real.sqrt t : ℝ) : ℂ))).h ∧
      sp.w = (tex.map (fun t => ((Real.sqrt t : ℝ) : ℂ))).w := ⟨hh, hw⟩
  rw [if_pos hcond]
  refine ⟨_, rfl, rfl, rfl, fun i j => ?_, fun i j => ?_⟩
  · show Complex.abs (sp.data i j * ((Real.sqrt (tex.data i j) : ℝ) : ℂ)) =
      Complex.abs (sp.data i j) * Real.sqrt (tex.data i j)
    rw [map_mul, Complex.abs_ofReal, abs_of_nonneg (Real.sqrt_nonneg _)]
  · show (0 : ℝ) ≤ Complex.abs (sp.data i j * ((Real.sqrt (tex.data i j) : ℝ) : ℂ))
    exact AbsoluteValue.nonneg _ _

/-- C8 witness: the composer characterization at a concrete one-cell pair. -/
theorem composeK_abs_mul_witness :
    ∃ am, composeK ⟨1, 1, fun _ _ => 0⟩ ⟨1, 1, fun _ _ => 1⟩ = some am ∧
      am.h = 1 ∧ am.w = 1 ∧
      (∀ i j, am.data i j =
        Complex.abs ((0 : ℂ)) * Real.sqrt ((1 : ℝ))) ∧
      (∀ i j, 0 ≤ am.data i j) :=
  composeK_abs_mul ⟨1, 1, fun _ _ => 0⟩ ⟨1, 1, fun _ _ => 1⟩ rfl rfl
    (fun _ _ => zero_le_one)

theorem normCoeffs_three (a b c : ℝ) (hc : c ≠ 0) : lastD (normCoeffs [a, b, c]) = 1 := by
  have h1 : lastD [a, b, c] = c := rfl
  have h2 : normCoeffs [a, b, c] = [a / c, b / c, c / c] := by
    simp only [normCoeffs, h1, List.map_cons, List.map_nil]
  rw [h2]
  show c / c = 1
  exact div_self hc

/-- C1 counterexample: for the sample field `x = [0]` with MNLT image
`T = [1]`, the estimated-then-normalized coefficient vector is
`[1/2, 0, 1]`; evaluating the polynomial at Gaussian-ACF value 1 — i.e.
summing the normalized coefficients — gives `3/2`, not `1` within `1e-6`. -/
theorem coeff_sum_at_one_cex :
    ¬ (|(normCoeffs (coeff_acf_polyn [0] [1])).sum - 1| ≤ 1e-6) := by
  rw [coeff_single]
  have hπ := Real.pi_ne_zero
  have hsum : (normCoeffs [1 / (2 * Real.pi), 0, 1 / Real.pi]).sum = 3 / 2 := by
    simp [normCoeffs, lastD]
    field_simp
    ring
  rw [hsum]
  rw [show (3 / 2 : ℝ) - 1 = 1 / 2 by norm_num,
    abs_of_nonneg (by norm_num : (0 : ℝ) ≤ 1 / 2)]
  norm_num

/-- C1 (amended): dividing the coefficient vector by its last entry makes the
constant (degree-0) coefficient equal to 1 — the polynomial maps
Gaussian-ACF value 0 to texture-ACF value 1, provided the last estimated
coefficient is non-zero; the value at Gaussian-ACF 1 is `1 + (a2 + a1)/a0`,
which in general differs from 1 (see the counterexample). -/
theorem normCoeffs_last_entry_one (x T : List ℝ)
    (h : lastD (coeff_acf_polyn x T) ≠ 0) :
    lastD (normCoeffs (coeff_acf_polyn x T)) = 1 := by
  rw [coeff_acf_polyn_explicit] at h ⊢
  exact normCoeffs_three _ _ _ h

/-- C1 witness: the amended normalization fact at the concrete sample
`x = [0]`, `T = [1]`, whose last estimated coefficient `1/pi` is non-zero. -/
theorem normCoeffs_last_entry_one_witness :
    lastD (normCoeffs (coeff_acf_polyn [0] [1])) = 1 :=
  normCoeffs_last_entry_one [0] [1]
    (by rw [coeff_single]; simp [lastD, Real.pi_ne_zero])

/-- C2 counterexample: on the two-cell sample `x = [0, 0]`, `T = [1, 1]` the
source's estimator returns degree-0 coefficient `(1/pi) * (sum)^2 = 4/pi`,
while the claimed mean-based estimator gives `(1/pi) * (mean)^2 = 1/pi`, and
the two differ. -/
theorem coeff_mean_cex :
    lastD (coeff_acf_polyn [0, 0] [1, 1]) = 4 / Real.pi ∧
    lastD (coeff_acf_polyn_mean [0, 0] [1, 1]) = 1 / Real.pi ∧
    (4 / Real.pi : ℝ) ≠ 1 / Real.pi := by
  have hπ := Real.pi_ne_zero
  have h := hermite_at_zero_small
  refine ⟨?_, ?_, ?_⟩
  · rw [coeff_acf_polyn_explicit]
    simp only [lastD, List.length_cons, List.length_nil, List.getD,
      List.zipWith_cons_cons, List.zipWith_nil_right, List.sum_cons, List.sum_nil]
    rw [h.1]
    norm_num [Real.exp_zero]
    ring
  · rw [coeff_acf_polyn_mean_explicit]
    simp only [lastD, List.length_cons, List.length_nil, List.getD,
      List.zipWith_cons_cons, List.zipWith_nil_right, List.sum_cons, List.sum_nil]
    rw [h.1]
    norm_num [Real.exp_zero]
  · intro hc
    field_simp at hc

/-- C2 (amended): the estimator returns, highest degree first, exactly
`alpha_n = (1/(pi * n! * 2^n)) * [S]^2` for `n = 2, 1, 0`, where `S` is the
plain sample SUM (not the arithmetic mean) of
`exp(-x^2) * H_n(x) * T(x)` over all cells of the realization. -/
theorem coeff_acf_polyn_entries (x T : List ℝ) :
    coeff_acf_polyn x T =
      [1 / (Real.pi * 2 * 2 ^ 2) *
         ((List.zipWith (fun a b => Real.exp (-(a ^ 2)) * hermite_polynomials a 2 * b) x T).sum) ^ 2,
       1 / (Real.pi * 1 * 2 ^ 1) *
         ((List.zipWith (fun a b => Real.exp (-(a ^ 2)) * hermite_polynomials a 1 * b) x T).sum) ^ 2,
       1 / (Real.pi * 1 * 2 ^ 0) *
         ((List.zipWith (fun a b => Real.exp (-(a ^ 2)) * hermite_polynomials a 0 * b) x T).sum) ^ 2] :=
  coeff_acf_polyn_explicit x T

set_option maxRecDepth 8000 in
/-- C7 counterexample: an engine built with `img_w = 300, img_h = 100`
produces amplitude and texture fields of shape `(300, 300)` — the texture ACF
grid is built as `(img_w, img_w)` and the speckle grid is hardcoded 300x300 —
not the claimed `(img_h, img_w) = (100, 300)`. -/
theorem generate_shape_cex :
    ((KField.generate envW (KField.init envW 300 100 5 (fun _ _ => 0))
        (fun _ _ => 0) (fun _ _ => 0)).1).map
      (fun p => ((p.1.h, p.1.w), (p.2.h, p.2.w))) = some ((300, 300), (300, 300)) ∧
    (300 : ℕ) ≠ 100 := by
  exact ⟨rfl, by norm_num⟩

set_option maxRecDepth 8000 in
/-- C7 (amended): for the square 300x300 configuration (matching the
hardcoded speckle grid) the frame call succeeds and returns amplitude and
texture fields of shape `(300, 300) = (img_h, img_w)` with non-negative
entries — the amplitude is a complex modulus, the texture consists of Gamma
quantile values, which are non-negative. -/
theorem generate_shape_300 (env : NumEnv) (v : ℝ) (g0 g1 g2 : ℕ → ℕ → ℝ)
    (hnn : ∀ a p, 0 ≤ env.gammaincinv a p) :
    ∃ am tex,
      (KField.generate env (KField.init env 300 300 v g0) g1 g2).1 = some (am, tex) ∧
      am.h = 300 ∧ am.w = 300 ∧ tex.h = 300 ∧ tex.w = 300 ∧
      (∀ i j, 0 ≤ am.data i j) ∧ (∀ i j, 0 ≤ tex.data i j) := by
  refine ⟨_, _, rfl, rfl, rfl, rfl, rfl, fun i j => ?_, fun i j => ?_⟩
  · exact AbsoluteValue.nonneg Complex.abs _
  · exact hnn v _

/-- C7 witness: the amended shape/positivity statement at the concrete
non-negative environment `envN`, `v = 5`, zero noise draws. -/
theorem generate_shape_300_witness :
    ∃ am tex,
      (KField.generate envN (KField.init envN 300 300 5 (fun _ _ => 0))
        (fun _ _ => 0) (fun _ _ => 0)).1 = some (am, tex) ∧
      am.h = 300 ∧ am.w = 300 ∧ tex.h = 300 ∧ tex.w = 300 ∧
      (∀ i j, 0 ≤ am.data i j) ∧ (∀ i j, 0 ≤ tex.data i j) :=
  generate_shape_300 envN 5 (fun _ _ => 0) (fun _ _ => 0) (fun _ _ => 0)
    (fun _ _ => le_refl 0)
